import Mathlib

set_option maxHeartbeats 1000000
set_option maxRecDepth 8192

/-!
Shallow embedding of the `feistel` Rust crate (`src/lib.rs` and
`src/padding.rs`).  Bytes are modelled as `Nat` values; the single `u8` cast
in the source (`needed_padding as u8`) is made explicit with `% 256`.  Rust
aborts (assertion failures and out-of-bounds slicing) are modelled by
`Option`: `none` stands for an aborted computation.
-/

/-- Mirrors `padding::PaddingError`, a newtype around `String` carrying the
human-readable reason of a padding anomaly. -/
structure PaddingError where
  reason : String
deriving DecidableEq

namespace pkcs7

/-- Mirrors `pkcs7::add_padding` (src/padding.rs lines 42-51): computes
`needed_padding = block_size - message.len() % block_size` and appends that
many copies of the byte `needed_padding as u8`.  The Rust function also
asserts `block_size <= 256`; that bound appears as a hypothesis of the
theorems below. -/
def add_padding (message : List Nat) (block_size : Nat) : List Nat :=
  message ++ List.replicate (block_size - message.length % block_size)
    ((block_size - message.length % block_size) % 256)

/-- Mirrors the `for _ in 1..=padding { match message.pop() ... }` loop of
`pkcs7::remove_padding`: pops `k` bytes from the end, each of which must equal
`padding`; yields the loop outcome together with the mutated buffer.  Note that
the Rust `pop` removes the byte before it is inspected, so a failing comparison
still leaves the buffer shortened. -/
def popLoop (padding : Nat) : Nat → List Nat → Except PaddingError Unit × List Nat
  | 0, msg => (Except.ok (), msg)
  | k+1, msg =>
    match msg.getLast? with
    | none => (Except.error ⟨"Malformed padding."⟩, msg)
    | some value =>
      if value = padding then popLoop padding k msg.dropLast
      else (Except.error ⟨"Malformed padding."⟩, msg.dropLast)

/-- Mirrors `pkcs7::remove_padding` (src/padding.rs lines 73-87), returning
the call result together with the final state of the buffer (the Rust
function mutates its argument in place). -/
def remove_padding (message : List Nat) : Except PaddingError Unit × List Nat :=
  match message.getLast? with
  | none => (Except.error ⟨"Empty message."⟩, message)
  | some p =>
    if 0 < p then popLoop p p message
    else (Except.error ⟨"Padding number cannot be 0."⟩, message)
end pkcs7

instance {α : Type} [DecidableEq α] : DecidableEq (Except PaddingError α) :=
  fun a b =>
  match a, b with
  | .ok x, .ok y =>
    if h : x = y then isTrue (by rw [h])
    else isFalse (by intro hc; injection hc with h2; exact h h2)
  | .error e₁, .error e₂ =>
    if h : e₁ = e₂ then isTrue (by rw [h])
    else isFalse (by intro hc; injection hc with h2; exact h h2)
  | .ok _, .error _ => isFalse (by intro hc; exact Except.noConfusion hc)
  | .error _, .ok _ => isFalse (by intro hc; exact Except.noConfusion hc)



/-- A round key, as produced by the key source of the caller (Rust `Vec<u8>`). -/
abbrev Key := List Nat

/-- A round function (the Rust closure `Fn(&[u8], &[u8]) -> Vec<u8>`). -/
abbrev RoundFn := List Nat → Key → List Nat

/-- Mirrors the inner `for _ in 1..=rounds` loop of `execute_rounds`
(src/lib.rs lines 28-41) on one block, tracking the two halves and the index
of the next key to draw.  Each round draws one key, forms
`left XOR round_function(right, key)` and shifts the halves.  The indexing
`left[i] ^= right[i]` for `i < half_block_size` aborts when the round
function returned fewer than `half_block_size` bytes, hence the guard; any
surplus bytes of the round function output are ignored, as in the source. -/
def processBlock (h : Nat) (f : RoundFn) (keys : Nat → Key) :
    Nat → Nat → List Nat → List Nat → Option (List Nat × List Nat × Nat)
  | idx, 0, l, r => some (l, r, idx)
  | idx, n+1, l, r =>
    let fr := f r (keys idx)
    if fr.length < h then none
    else processBlock h f keys (idx+1) n r (List.zipWith Nat.xor l fr)

/-- Mirrors the outer `while start < result.len()` loop of `execute_rounds`
(src/lib.rs lines 23-49): processes one `2*h`-byte block (aborting, like the
Rust slicing, when fewer than `2*h` bytes remain), applies the final
unconditional swap of the two halves, and continues with the rest.  The
`fuel` argument only bounds the number of iterations; with `0 < h` a fuel of
`buffer.length` is never exhausted.  In the `h = 0` case, where the Rust loop
would never terminate, the fuel runs out and the result is `none`. -/
def goER (h : Nat) (f : RoundFn) (keys : Nat → Key) (rounds : Nat) :
    Nat → List Nat → Nat → Option (List Nat × Nat)
  | _, [], idx => some ([], idx)
  | 0, _ :: _, _ => none
  | fuel+1, x :: rest, idx =>
    let buf := x :: rest
    if 2*h ≤ buf.length then
      match processBlock h f keys idx rounds (buf.take h) ((buf.drop h).take h) with
      | none => none
      | some (l, r, idx2) =>
        match goER h f keys rounds fuel (buf.drop (2*h)) idx2 with
        | none => none
        | some (tail, idx3) => some ((r ++ l) ++ tail, idx3)
    else none

/-- Mirrors `execute_rounds` (src/lib.rs lines 7-50), with two additions to
the signature: `idx` is the index of the next key the stateful
`key_generator` closure would produce (the closure is modelled by the pure
stream `keys`), and the returned `Nat` is the corresponding index after the
call. -/
def execute_rounds (buffer : List Nat) (block_size : Nat) (keys : Nat → Key)
    (f : RoundFn) (rounds : Nat) (idx : Nat) : Option (List Nat × Nat) :=
  goER (block_size/2) f keys rounds buffer.length buffer idx

/-- Mirrors `cipher` (src/lib.rs lines 72-93).  `none` models an abort:
either of the two block-size assertions failing, or an abort inside the
round engine. -/
def cipher (message : List Nat) (block_size : Nat)
    (padder : List Nat → Nat → List Nat) (keys : Nat → Key) (f : RoundFn)
    (rounds : Nat) : Option (List Nat) :=
  if block_size = 0 then none
  else if block_size % 2 ≠ 0 then none
  else
    match execute_rounds (padder message block_size) block_size keys f rounds 0 with
    | none => none
    | some (result, _) => some result

/-- Mirrors `decipher` (src/lib.rs lines 122-144): same block-size
assertions, engine run over a copy of the message, then the padding remover,
whose error is propagated. -/
def decipher (message : List Nat) (block_size : Nat) (keys : Nat → Key)
    (f : RoundFn) (rounds : Nat)
    (padding_remover : List Nat → Except PaddingError Unit × List Nat) :
    Option (Except PaddingError (List Nat)) :=
  if block_size = 0 then none
  else if block_size % 2 ≠ 0 then none
  else
    match execute_rounds message block_size keys f rounds 0 with
    | none => none
    | some (result, _) =>
      match padding_remover result with
      | (Except.ok _, cleaned) => some (Except.ok cleaned)
      | (Except.error e, _) => some (Except.error e)

/-- The keys a key source in state `idx` yields over its next `n` draws, in
draw order. -/
def nextKeys (keys : Nat → Key) (idx n : Nat) : List Key :=
  (List.range n).map fun i => keys (idx + i)

/-- Written from the spec (§4.1, step 2): for each round, with key `k`,
compute `new_right = left XOR round_function(right, k)`, move the old right
half into the left position and the new half into the right position. -/
def feistel_rounds_spec (f : RoundFn) :
    List Key → List Nat × List Nat → List Nat × List Nat
  | [], p => p
  | k :: ks, (l, r) => feistel_rounds_spec f ks (r, List.zipWith Nat.xor l (f r k))

/-- Written from the spec (§4.1): split the block at its midpoint, run the
round sequence, then perform the unconditional final swap. -/
def block_spec (f : RoundFn) (ks : List Key) (h : Nat) (blk : List Nat) :
    List Nat :=
  let p := feistel_rounds_spec f ks (blk.take h, blk.drop h)
  p.2 ++ p.1

/-- Written from the spec (§4.1): apply the per-block algorithm independently
and left-to-right to each of the `n` blocks, drawing `rounds` fresh keys per
block from one continuous stream. -/
def engine_spec (h : Nat) (f : RoundFn) (keys : Nat → Key) (rounds : Nat) :
    Nat → Nat → List Nat → List Nat
  | _, 0, _ => []
  | idx, n+1, buf =>
    block_spec f (nextKeys keys idx rounds) h (buf.take (2*h))
      ++ engine_spec h f keys rounds (idx + rounds) n (buf.drop (2*h))

/-- The block-wise swap of the two halves: the effect of the engine when
`rounds = 0`. -/
def swap_halves (h : Nat) : Nat → List Nat → List Nat
  | 0, _ => []
  | n+1, buf => (buf.drop h).take h ++ buf.take h ++ swap_halves h n (buf.drop (2*h))

/-- Case analysis on a list from the right, in `++ [b]` form. -/
theorem list_eq_nil_or_append_last {α : Type} (l : List α) :
    l = [] ∨ ∃ L b, l = L ++ [b] := by
  rcases List.eq_nil_or_concat l with h | ⟨L, b, h⟩
  · exact Or.inl h
  · exact Or.inr ⟨L, b, by rw [h, List.concat_eq_append]⟩

namespace pkcs7


theorem popLoop_replicate (v : Nat) :
    ∀ (k : Nat) (rest : List Nat),
      popLoop v k (rest ++ List.replicate k v) = (Except.ok (), rest)
  | 0, rest => by simp [popLoop]
  | k+1, rest => by
    have hsplit : rest ++ List.replicate (k+1) v
        = (rest ++ List.replicate k v) ++ [v] := by
      rw [List.replicate_succ', ← List.append_assoc]
    rw [hsplit, popLoop, List.getLast?_concat]
    simp only [if_pos rfl, List.dropLast_concat]
    exact popLoop_replicate v k rest

/-- The pop loop can only fail with the malformed-padding reason. -/
theorem popLoop_error_shape (v : Nat) :
    ∀ (k : Nat) (msg : List Nat),
      (popLoop v k msg).1 = Except.ok ()
      ∨ (popLoop v k msg).1 = Except.error ⟨"Malformed padding."⟩
  | 0, _ => Or.inl rfl
  | k+1, msg => by
    rcases list_eq_nil_or_append_last msg with hnil | ⟨ms, a, rfl⟩
    · subst hnil; exact Or.inr rfl
    · rw [popLoop, List.getLast?_concat]
      dsimp only
      by_cases hav : a = v
      · rw [if_pos hav, List.dropLast_concat]
        exact popLoop_error_shape v k ms
      · rw [if_neg hav]
        exact Or.inr rfl

/-- If the pop loop succeeds, the buffer it was given ended in `k` copies of
`v`. -/
theorem popLoop_ok_decomp (v : Nat) :
    ∀ (k : Nat) (msg : List Nat),
      (popLoop v k msg).1 = Except.ok () →
      ∃ rest, msg = rest ++ List.replicate k v
  | 0, msg, _ => ⟨msg, by simp⟩
  | k+1, msg, hok => by
    rcases list_eq_nil_or_append_last msg with hnil | ⟨ms, a, rfl⟩
    · subst hnil; exact absurd hok (by simp [popLoop])
    · rw [popLoop, List.getLast?_concat] at hok
      dsimp only at hok
      by_cases hav : a = v
      · rw [if_pos hav, List.dropLast_concat] at hok
        obtain ⟨rest, hrest⟩ := popLoop_ok_decomp v k ms hok
        exact ⟨rest, by
          rw [hrest, hav, List.replicate_succ', ← List.append_assoc]⟩
      · rw [if_neg hav] at hok
        exact absurd hok (by simp)

/-- The pop loop never grows the buffer. -/
theorem popLoop_len_le (v : Nat) :
    ∀ (k : Nat) (msg : List Nat),
      (popLoop v k msg).2.length ≤ msg.length
  | 0, _ => Nat.le_refl _
  | k+1, msg => by
    rcases list_eq_nil_or_append_last msg with hnil | ⟨ms, a, rfl⟩
    · subst hnil; simp [popLoop]
    · rw [popLoop, List.getLast?_concat]
      dsimp only
      by_cases hav : a = v
      · rw [if_pos hav, List.dropLast_concat]
        calc (popLoop v k ms).2.length ≤ ms.length := popLoop_len_le v k ms
          _ ≤ (ms ++ [a]).length := by simp
      · rw [if_neg hav]
        simp [List.dropLast_concat]

/-- A failing pop loop on a nonempty buffer leaves the buffer strictly
shorter: at least the first pop has already happened. -/
theorem popLoop_error_lt (v : Nat) (k : Nat) (msg : List Nat) (e : PaddingError)
    (hne : msg ≠ []) (herr : (popLoop v k msg).1 = Except.error e) :
    (popLoop v k msg).2.length < msg.length := by
  cases k with
  | zero => exact absurd herr (by simp [popLoop])
  | succ k =>
    rcases list_eq_nil_or_append_last msg with hnil | ⟨ms, a, rfl⟩
    · exact absurd hnil hne
    · rw [popLoop, List.getLast?_concat]
      dsimp only
      by_cases hav : a = v
      · rw [if_pos hav, List.dropLast_concat]
        calc (popLoop v k ms).2.length ≤ ms.length := popLoop_len_le v k ms
          _ < (ms ++ [a]).length := by simp
      · rw [if_neg hav]
        simp [List.dropLast_concat]

theorem getLast?_append_replicate (m : List Nat) (v k : Nat) (hk : 0 < k) :
    (m ++ List.replicate k v).getLast? = some v := by
  obtain ⟨j, rfl⟩ : ∃ j, k = j + 1 := ⟨k - 1, by omega⟩
  rw [List.replicate_succ', ← List.append_assoc, List.getLast?_concat]

theorem add_padding_length (m : List Nat) (B : Nat) :
    (add_padding m B).length = m.length + (B - m.length % B) := by
  simp [add_padding]

theorem add_padding_length_mod (m : List Nat) (B : Nat) (h : 0 < B) :
    (add_padding m B).length % B = 0 := by
  rw [add_padding_length]
  have h1 := Nat.div_add_mod m.length B
  have h2 := Nat.mod_lt m.length h
  have key : m.length + (B - m.length % B) = B * (m.length / B) + B := by omega
  rw [key, Nat.mul_add_mod, Nat.mod_self]

theorem needed_padding_pos (m : List Nat) (B : Nat) (h : 0 < B) :
    0 < B - m.length % B := by
  have h2 := Nat.mod_lt m.length h
  omega

/-- The wrapped padding tag equals the pad length whenever the pad length fits
in a byte, which is the case except for `B = 256` on a message whose length is
a multiple of 256. -/
theorem needed_padding_tag (m : List Nat) (B : Nat) (h1 : 1 ≤ B) (h2 : B ≤ 256)
    (h3 : B ≤ 255 ∨ m.length % B ≠ 0) :
    (B - m.length % B) % 256 = B - m.length % B := by
  have h4 := Nat.mod_lt m.length (show 0 < B by omega)
  apply Nat.mod_eq_of_lt
  omega

/-- Round trip of the padding scheme, in its exact domain of validity. -/
theorem remove_padding_add_padding (m : List Nat) (B : Nat) (h1 : 1 ≤ B)
    (h2 : B ≤ 256) (h3 : B ≤ 255 ∨ m.length % B ≠ 0) :
    remove_padding (add_padding m B) = (Except.ok (), m) := by
  have hpos := needed_padding_pos m B (by omega)
  have htag := needed_padding_tag m B h1 h2 h3
  rw [remove_padding, add_padding, htag,
    getLast?_append_replicate m _ _ hpos]
  dsimp only
  rw [if_pos hpos, popLoop_replicate]


end pkcs7

namespace pkcs7

/-- C2: the claim quantifies over every `1 ≤ B ≤ 256`, but at `B = 256` with
`m.length` a multiple of 256 the stored tag byte is `256 as u8 = 0`, so
removal fails.  Concretely, `remove_padding (add_padding [] 256)` does not
restore the empty message. -/
theorem C2_counterexample :
    remove_padding (add_padding ([] : List Nat) 256)
      ≠ (Except.ok (), ([] : List Nat)) := by
  intro hcontra
  have hval : remove_padding (add_padding ([] : List Nat) 256)
      = (Except.error ⟨"Padding number cannot be 0."⟩, List.replicate 256 0) := by
    rfl
  rw [hval] at hcontra
  have := congrArg Prod.fst hcontra
  exact Except.noConfusion this

/-- C2 (amended): `remove_padding (add_padding m B)` succeeds and restores `m`
exactly, for every `m` and every `1 ≤ B ≤ 256` — except in the single wrapped
case `B = 256` with `m.length` a multiple of 256, where the one-byte tag
overflows to 0. -/
theorem C2_round_trip (m : List Nat) (B : Nat) (h1 : 1 ≤ B) (h2 : B ≤ 256)
    (h3 : B ≤ 255 ∨ m.length % B ≠ 0) :
    remove_padding (add_padding m B) = (Except.ok (), m) :=
  remove_padding_add_padding m B h1 h2 h3

theorem C2_round_trip_witness :
    remove_padding (add_padding [9, 7] 4) = (Except.ok (), [9, 7]) :=
  C2_round_trip [9, 7] 4 (by decide) (by decide) (Or.inl (by decide))

/-- C4: `remove_padding` fails on the empty message; fails when the last byte
is 0; otherwise it reads the pad length from the last byte and pops exactly
that many bytes, failing with the malformed-padding error unless the message
ends in `pad_len` copies of `pad_len`; on success the buffer is truncated by
exactly `pad_len` bytes. -/
theorem C4_remove_padding_behaviour (msg : List Nat) (p : Nat)
    (hlast : msg.getLast? = some p) :
    remove_padding ([] : List Nat) = (Except.error ⟨"Empty message."⟩, ([] : List Nat))
    ∧ (p = 0 →
        remove_padding msg = (Except.error ⟨"Padding number cannot be 0."⟩, msg))
    ∧ (0 < p → (∃ rest, msg = rest ++ List.replicate p p) →
        remove_padding msg = (Except.ok (), msg.take (msg.length - p)))
    ∧ (0 < p → (¬ ∃ rest, msg = rest ++ List.replicate p p) →
        (remove_padding msg).1 = Except.error ⟨"Malformed padding."⟩) := by
  refine ⟨rfl, ?_, ?_, ?_⟩
  · intro hp0
    subst hp0
    rw [remove_padding, hlast]
    dsimp only
    rw [if_neg (by omega)]
  · rintro hp ⟨rest, rfl⟩
    rw [remove_padding, hlast]
    dsimp only
    rw [if_pos hp, popLoop_replicate]
    have hlen : (rest ++ List.replicate p p).length - p = rest.length := by
      simp
    rw [hlen, List.take_left]
  · intro hp hnodecomp
    rw [remove_padding, hlast]
    dsimp only
    rw [if_pos hp]
    rcases popLoop_error_shape p p msg with hok | herr
    · exact absurd (popLoop_ok_decomp p p msg hok) hnodecomp
    · exact herr

theorem C4_remove_padding_behaviour_witness :
    remove_padding [5, 2, 2] = (Except.ok (), [5]) := by
  have h := (C4_remove_padding_behaviour [5, 2, 2] 2 rfl).2.2.1 (by decide)
    ⟨[5], rfl⟩
  simpa using h

/-- C5: the claim states the appended bytes each carry the value `pad_len`
itself; at `B = 256` on an exact multiple the byte actually stored is
`256 as u8 = 0`, not 256. -/
theorem C5_counterexample :
    add_padding ([] : List Nat) 256 ≠ List.replicate 256 256 := by
  intro hcontra
  have h0 : add_padding ([] : List Nat) 256 = List.replicate 256 0 := rfl
  rw [h0] at hcontra
  have hh := congrArg List.head? hcontra
  have h1 : (List.replicate 256 (0 : Nat)).head? = some 0 := rfl
  have h2 : (List.replicate 256 (256 : Nat)).head? = some 256 := rfl
  rw [h1, h2] at hh
  injection hh with hv
  exact absurd hv (by omega)

/-- C5 (amended): `add_padding` appends `pad_len = B - m.length % B` bytes,
each with value `pad_len mod 256` — which equals `pad_len` itself except in
the single case `B = 256` with `m.length` a multiple of 256, where the byte
wraps to 0; `pad_len` ranges from 1 to `B` inclusive, and a message whose
length is already a multiple of `B` receives a full extra block of padding. -/
theorem C5_add_padding_shape (m : List Nat) (B : Nat) (h1 : 1 ≤ B)
    (h2 : B ≤ 256) :
    add_padding m B
        = m ++ List.replicate (B - m.length % B) ((B - m.length % B) % 256)
    ∧ 1 ≤ B - m.length % B
    ∧ B - m.length % B ≤ B
    ∧ ((B ≤ 255 ∨ m.length % B ≠ 0) →
        (B - m.length % B) % 256 = B - m.length % B)
    ∧ (m.length % B = 0 → (add_padding m B).length = m.length + B) := by
  refine ⟨rfl, needed_padding_pos m B (by omega), by omega,
    fun h3 => needed_padding_tag m B h1 h2 h3, fun hmul => ?_⟩
  rw [add_padding_length, hmul]
  omega

theorem C5_add_padding_shape_witness :
    add_padding [1, 2, 3] 4
        = [1, 2, 3] ++ List.replicate (4 - [1, 2, 3].length % 4)
            ((4 - [1, 2, 3].length % 4) % 256)
    ∧ 1 ≤ 4 - [1, 2, 3].length % 4
    ∧ 4 - [1, 2, 3].length % 4 ≤ 4
    ∧ ((4 ≤ 255 ∨ [1, 2, 3].length % 4 ≠ 0) →
        (4 - [1, 2, 3].length % 4) % 256 = 4 - [1, 2, 3].length % 4)
    ∧ ([1, 2, 3].length % 4 = 0 →
        (add_padding [1, 2, 3] 4).length = [1, 2, 3].length + 4) :=
  C5_add_padding_shape [1, 2, 3] 4 (by decide) (by decide)

/-- C8: every error produced while removing padding carries exactly one of
the three reasons of the source, each under the condition the spec assigns:
empty input, zero last byte, or a tail that is not `p` copies of the tag
`p`. -/
theorem C8_error_taxonomy (msg : List Nat) :
    (remove_padding msg).1 = Except.ok ()
    ∨ ((remove_padding msg).1 = Except.error ⟨"Empty message."⟩ ∧ msg = [])
    ∨ ((remove_padding msg).1 = Except.error ⟨"Padding number cannot be 0."⟩
        ∧ msg ≠ [] ∧ msg.getLast? = some 0)
    ∨ ((remove_padding msg).1 = Except.error ⟨"Malformed padding."⟩
        ∧ ∃ p, msg.getLast? = some p ∧ 0 < p
            ∧ ¬ ∃ rest, msg = rest ++ List.replicate p p) := by
  rcases list_eq_nil_or_append_last msg with rfl | ⟨ms, a, rfl⟩
  · exact Or.inr (Or.inl ⟨rfl, rfl⟩)
  · have hlast : (ms ++ [a]).getLast? = some a := List.getLast?_concat ms
    by_cases ha : 0 < a
    · have hrp : remove_padding (ms ++ [a]) = popLoop a a (ms ++ [a]) := by
        rw [remove_padding, hlast]
        dsimp only
        rw [if_pos ha]
      rcases popLoop_error_shape a a (ms ++ [a]) with hok | herr
      · exact Or.inl (by rw [hrp]; exact hok)
      · refine Or.inr (Or.inr (Or.inr ⟨by rw [hrp]; exact herr, a, hlast, ha, ?_⟩))
        rintro ⟨rest, hdecomp⟩
        rw [hdecomp, popLoop_replicate] at herr
        exact Except.noConfusion herr
    · have ha0 : a = 0 := by omega
      subst ha0
      refine Or.inr (Or.inr (Or.inl ⟨?_, by simp, hlast⟩))
      rw [remove_padding, hlast]
      dsimp only
      rw [if_neg (by omega)]

/-- C10: `remove_padding` is not atomic on failure: a malformed-padding error
leaves the buffer strictly shorter than on entry (so not equal to it), while
the empty-message and zero-tag errors leave it unchanged. -/
theorem C10_failure_not_atomic (msg : List Nat) :
    ((remove_padding msg).1 = Except.error ⟨"Malformed padding."⟩ →
      (remove_padding msg).2.length < msg.length
      ∧ (remove_padding msg).2 ≠ msg)
    ∧ (((remove_padding msg).1 = Except.error ⟨"Empty message."⟩
        ∨ (remove_padding msg).1 = Except.error ⟨"Padding number cannot be 0."⟩) →
      (remove_padding msg).2 = msg) := by
  rcases list_eq_nil_or_append_last msg with rfl | ⟨ms, a, rfl⟩
  · constructor
    · intro hmal
      have : (⟨"Empty message."⟩ : PaddingError) = ⟨"Malformed padding."⟩ := by
        have hval : (remove_padding ([] : List Nat)).1
            = Except.error ⟨"Empty message."⟩ := rfl
        rw [hval] at hmal
        injection hmal
      simp at this
    · intro _; rfl
  · have hlast : (ms ++ [a]).getLast? = some a := List.getLast?_concat ms
    by_cases ha : 0 < a
    · have hrp : remove_padding (ms ++ [a]) = popLoop a a (ms ++ [a]) := by
        rw [remove_padding, hlast]
        dsimp only
        rw [if_pos ha]
      constructor
      · intro hmal
        rw [hrp] at hmal ⊢
        have hlt := popLoop_error_lt a a (ms ++ [a]) _ (by simp) hmal
        refine ⟨hlt, fun heq => ?_⟩
        rw [heq] at hlt
        exact Nat.lt_irrefl _ hlt
      · intro hother
        rcases popLoop_error_shape a a (ms ++ [a]) with hok | herr
        · rcases hother with h | h <;>
            · rw [hrp] at h
              rw [hok] at h
              exact Except.noConfusion h
        · rcases hother with h | h <;>
            · rw [hrp] at h
              rw [herr] at h
              injection h with h2
              injection h2 with h3
              simp at h3
    · have ha0 : a = 0 := by omega
      subst ha0
      have hrp : remove_padding (ms ++ [0])
          = (Except.error ⟨"Padding number cannot be 0."⟩, ms ++ [0]) := by
        rw [remove_padding, hlast]
        dsimp only
        rw [if_neg ha]
      constructor
      · intro hmal
        rw [hrp] at hmal
        injection hmal with h2
        injection h2 with h3
        simp at h3
      · intro _
        rw [hrp]

theorem C10_failure_not_atomic_witness :
    (remove_padding [1, 3, 5]).2.length < [1, 3, 5].length
    ∧ (remove_padding [1, 3, 5]).2 ≠ [1, 3, 5] :=
  (C10_failure_not_atomic [1, 3, 5]).1 rfl

end pkcs7

theorem nextKeys_zero (keys : Nat → Key) (idx : Nat) : nextKeys keys idx 0 = [] := rfl

theorem nextKeys_succ (keys : Nat → Key) (idx n : Nat) :
    nextKeys keys idx (n+1) = keys idx :: nextKeys keys (idx+1) n := by
  unfold nextKeys
  rw [List.range_succ_eq_map, List.map_cons, List.map_map]
  congr 1
  apply List.map_congr_left
  intro a _
  show keys (idx + (a + 1)) = keys (idx + 1 + a)
  congr 1
  omega

/-- Under the round-function length contract the per-block loop of the source
never aborts and computes exactly the round sequence of the spec, drawing one key
per round. -/
theorem processBlock_eq_spec (h : Nat) (f : RoundFn) (keys : Nat → Key)
    (hf : ∀ x k, (f x k).length = h) :
    ∀ (n idx : Nat) (l r : List Nat),
      processBlock h f keys idx n l r
        = some ((feistel_rounds_spec f (nextKeys keys idx n) (l, r)).1,
            (feistel_rounds_spec f (nextKeys keys idx n) (l, r)).2, idx + n)
  | 0, idx, l, r => by
    simp [processBlock, nextKeys_zero, feistel_rounds_spec]
  | n+1, idx, l, r => by
    simp only [processBlock]
    rw [hf r (keys idx), if_neg (Nat.lt_irrefl h)]
    rw [processBlock_eq_spec h f keys hf n (idx+1) r _]
    rw [nextKeys_succ, feistel_rounds_spec]
    rw [show idx + 1 + n = idx + (n+1) from by omega]

/-- Under the round-function length contract, a buffer whose length is a
multiple of the (positive) half-block times two is processed by the source
engine loop exactly as the spec describes: block by block, left to right,
with `rounds` keys drawn per block from one continuous stream. -/
theorem goER_eq_spec (h : Nat) (f : RoundFn) (keys : Nat → Key) (rounds : Nat)
    (hh : 0 < h) (hf : ∀ x k, (f x k).length = h) :
    ∀ (fuel : Nat) (buf : List Nat) (idx : Nat),
      buf.length % (2*h) = 0 → buf.length ≤ fuel →
      goER h f keys rounds fuel buf idx
        = some (engine_spec h f keys rounds idx (buf.length / (2*h)) buf,
            idx + rounds * (buf.length / (2*h))) := by
  intro fuel
  induction fuel with
  | zero =>
    intro buf idx hmod hle
    have hbuf : buf = [] := List.eq_nil_of_length_eq_zero (by omega)
    subst hbuf
    simp [goER, engine_spec]
  | succ fuel ih =>
    intro buf idx hmod hle
    match buf with
    | [] => simp [goER, engine_spec]
    | x :: rest =>
      obtain ⟨q, hq⟩ : (2*h) ∣ (x :: rest).length := Nat.dvd_of_mod_eq_zero hmod
      have hqpos : 0 < q := by
        rcases Nat.eq_zero_or_pos q with h0 | h0
        · rw [h0, Nat.mul_zero] at hq
          simp at hq
        · exact h0
      obtain ⟨q', rfl⟩ : ∃ q', q = q' + 1 := ⟨q - 1, by omega⟩
      have h2h : 0 < 2*h := by omega
      have hguard : 2*h ≤ (x :: rest).length := by
        rw [hq]
        exact Nat.le_mul_of_pos_right _ hqpos
      have hdiv : (x :: rest).length / (2*h) = q' + 1 := by
        rw [hq, Nat.mul_div_cancel_left _ h2h]
      have hdroplen : ((x :: rest).drop (2*h)).length = 2*h*q' := by
        rw [List.length_drop, hq, Nat.mul_succ, Nat.add_sub_cancel]
      have hmod' : ((x :: rest).drop (2*h)).length % (2*h) = 0 := by
        rw [hdroplen]
        exact Nat.mul_mod_right _ _
      have hle' : ((x :: rest).drop (2*h)).length ≤ fuel := by
        rw [List.length_drop]
        simp only [List.length_cons] at hle ⊢
        omega
      have hdiv' : ((x :: rest).drop (2*h)).length / (2*h) = q' := by
        rw [hdroplen, Nat.mul_div_cancel_left _ h2h]
      rw [goER]
      rw [if_pos hguard]
      rw [processBlock_eq_spec h f keys hf rounds idx _ _]
      dsimp only
      rw [ih _ _ hmod' hle']
      rw [hdiv, hdiv', engine_spec]
      unfold block_spec
      rw [List.take_take, Nat.min_def, if_pos (by omega), List.drop_take,
        show 2*h - h = h from by omega]
      dsimp only
      rw [List.append_assoc]
      rw [show idx + rounds + rounds * q' = idx + rounds * (q' + 1) from by
        rw [Nat.mul_succ]; ring]

/-- The round sequence preserves the lengths of the two halves. -/
theorem feistel_rounds_spec_length (h : Nat) (f : RoundFn)
    (hf : ∀ x k, (f x k).length = h) :
    ∀ (ks : List Key) (l r : List Nat), l.length = h → r.length = h →
      (feistel_rounds_spec f ks (l, r)).1.length = h
      ∧ (feistel_rounds_spec f ks (l, r)).2.length = h
  | [], l, r, hl, hr => ⟨hl, hr⟩
  | k :: ks, l, r, hl, hr => by
    rw [feistel_rounds_spec]
    exact feistel_rounds_spec_length h f hf ks r _ hr
      (by rw [List.length_zipWith, hl, hf]; omega)

theorem feistel_rounds_spec_append (f : RoundFn) :
    ∀ (ks₁ ks₂ : List Key) (p : List Nat × List Nat),
      feistel_rounds_spec f (ks₁ ++ ks₂) p
        = feistel_rounds_spec f ks₂ (feistel_rounds_spec f ks₁ p)
  | [], ks₂, p => by simp [feistel_rounds_spec]
  | k :: ks₁, ks₂, (l, r) => by
    rw [List.cons_append, feistel_rounds_spec, feistel_rounds_spec]
    exact feistel_rounds_spec_append f ks₁ ks₂ _

theorem zipWith_xor_cancel :
    ∀ (a b : List Nat), a.length ≤ b.length →
      List.zipWith Nat.xor (List.zipWith Nat.xor a b) b = a
  | [], _, _ => by simp
  | x :: a, y :: b, hle => by
    simp only [List.zipWith_cons_cons]
    refine congrArg₂ List.cons ?_ ?_
    · show x ^^^ y ^^^ y = x
      rw [Nat.xor_assoc, Nat.xor_self, Nat.xor_zero]
    · exact zipWith_xor_cancel a b (by simpa using hle)

/-- Core Feistel inversion: running the round sequence again with the
reversed key list, starting from the swapped halves, recovers the swapped
original halves. -/
theorem feistel_rounds_spec_inv (h : Nat) (f : RoundFn)
    (hf : ∀ x k, (f x k).length = h) :
    ∀ (ks : List Key) (l r : List Nat), l.length = h → r.length = h →
      feistel_rounds_spec f ks.reverse
          ((feistel_rounds_spec f ks (l, r)).2,
            (feistel_rounds_spec f ks (l, r)).1)
        = (r, l)
  | [], l, r, _, _ => by simp [feistel_rounds_spec]
  | k :: ks, l, r, hl, hr => by
    have hstep : feistel_rounds_spec f (k :: ks) (l, r)
        = feistel_rounds_spec f ks (r, List.zipWith Nat.xor l (f r k)) := rfl
    rw [List.reverse_cons, feistel_rounds_spec_append, hstep]
    have hlen : (List.zipWith Nat.xor l (f r k)).length = h := by
      rw [List.length_zipWith, hl, hf]; omega
    rw [feistel_rounds_spec_inv h f hf ks r (List.zipWith Nat.xor l (f r k)) hr hlen]
    rw [feistel_rounds_spec, feistel_rounds_spec]
    refine congrArg₂ Prod.mk rfl ?_
    exact zipWith_xor_cancel l (f r k) (by rw [hl, hf])

/-- Lengths of a spec-processed block. -/
theorem block_spec_length (h : Nat) (f : RoundFn) (ks : List Key)
    (hf : ∀ x k, (f x k).length = h) (blk : List Nat) (hblk : blk.length = 2*h) :
    (block_spec f ks h blk).length = 2*h := by
  unfold block_spec
  have h1 : (blk.take h).length = h := by
    rw [List.length_take]; omega
  have h2 : (blk.drop h).length = h := by
    rw [List.length_drop]; omega
  obtain ⟨p1, p2⟩ := feistel_rounds_spec_length h f hf ks _ _ h1 h2
  simp only [List.length_append]
  omega

/-- Block-level inversion: deciphering a spec-processed block with the
reversed key list restores the block. -/
theorem block_spec_inv (h : Nat) (f : RoundFn) (ks : List Key)
    (hf : ∀ x k, (f x k).length = h) (blk : List Nat) (hblk : blk.length = 2*h) :
    block_spec f ks.reverse h (block_spec f ks h blk) = blk := by
  unfold block_spec
  have h1 : (blk.take h).length = h := by
    rw [List.length_take]; omega
  have h2 : (blk.drop h).length = h := by
    rw [List.length_drop]; omega
  obtain ⟨p1, p2⟩ := feistel_rounds_spec_length h f hf ks _ _ h1 h2
  rw [List.take_left' p2, List.drop_left' p2]
  rw [feistel_rounds_spec_inv h f hf ks _ _ h1 h2]
  exact List.take_append_drop h blk

/-- A key source whose draws at offsets `base..base+n` are the reverse of
those of another yields the reversed key list. -/
theorem nextKeys_rev (keys₁ keys₂ : Nat → Key) (base n : Nat)
    (hk : ∀ i, i < n → keys₂ (base + i) = keys₁ (base + (n - 1 - i))) :
    nextKeys keys₂ base n = (nextKeys keys₁ base n).reverse := by
  apply List.ext_getElem
  · simp [nextKeys]
  · intro i h1 h2
    have hi : i < n := by simpa [nextKeys] using h1
    have hrect : (nextKeys keys₁ base n).length = n := by simp [nextKeys]
    rw [List.getElem_reverse]
    simp only [nextKeys, List.getElem_map, List.getElem_range, List.length_map,
      List.length_range]
    exact hk i hi

/-- The spec engine preserves the buffer length. -/
theorem engine_spec_length (h : Nat) (f : RoundFn) (keys : Nat → Key)
    (rounds : Nat) (hf : ∀ x k, (f x k).length = h) :
    ∀ (n idx : Nat) (buf : List Nat), buf.length = 2*h*n →
      (engine_spec h f keys rounds idx n buf).length = 2*h*n
  | 0, idx, buf, hlen => by simp [engine_spec]
  | n+1, idx, buf, hlen => by
    rw [engine_spec]
    have hge : 2*h ≤ buf.length := by
      rw [hlen]
      exact Nat.le_mul_of_pos_right _ (Nat.succ_pos n)
    have hblk : (buf.take (2*h)).length = 2*h := by
      rw [List.length_take]
      omega
    have hdrop : (buf.drop (2*h)).length = 2*h*n := by
      rw [List.length_drop, hlen, Nat.mul_succ, Nat.add_sub_cancel]
    rw [List.length_append, block_spec_length h f _ hf _ hblk,
      engine_spec_length h f keys rounds hf n (idx + rounds) _ hdrop,
      Nat.mul_succ]
    omega

/-- The spec engine only looks at the keys it actually draws. -/
theorem engine_spec_congr (h : Nat) (f : RoundFn) (rounds : Nat)
    (keys₁ keys₂ : Nat → Key) :
    ∀ (n idx : Nat) (buf : List Nat),
      (∀ j, idx ≤ j → j < idx + rounds * n → keys₁ j = keys₂ j) →
      engine_spec h f keys₁ rounds idx n buf
        = engine_spec h f keys₂ rounds idx n buf
  | 0, _, _, _ => rfl
  | n+1, idx, buf, hagree => by
    rw [engine_spec, engine_spec]
    have hks : nextKeys keys₁ idx rounds = nextKeys keys₂ idx rounds := by
      unfold nextKeys
      apply List.map_congr_left
      intro a ha
      have halt : a < rounds := List.mem_range.mp ha
      refine hagree (idx + a) (Nat.le_add_right idx a) ?_
      exact Nat.add_lt_add_left
        (Nat.lt_of_lt_of_le halt (Nat.le_mul_of_pos_right _ (Nat.succ_pos n))) idx
    rw [hks]
    have heq : idx + rounds + rounds * n = idx + rounds * (n+1) := by
      rw [Nat.mul_succ]
      ring
    have htail := engine_spec_congr h f rounds keys₁ keys₂ n (idx + rounds)
      (buf.drop (2*h)) (fun j hj1 hj2 => hagree j
        (Nat.le_trans (Nat.le_add_right idx rounds) hj1)
        (Nat.lt_of_lt_of_eq hj2 heq))
    rw [htail]

/-- Engine-level inversion: a second spec-engine pass whose per-block key
lists reverse those of the first pass recovers the original buffer. -/
theorem engine_spec_inv (h : Nat) (f : RoundFn) (rounds : Nat)
    (ks_e ks_d : Nat → Key) (hf : ∀ x k, (f x k).length = h)
    (hks : ∀ b i, i < rounds →
      ks_d (b*rounds + i) = ks_e (b*rounds + (rounds - 1 - i))) :
    ∀ (n b₀ : Nat) (buf : List Nat), buf.length = 2*h*n →
      engine_spec h f ks_d rounds (b₀*rounds) n
          (engine_spec h f ks_e rounds (b₀*rounds) n buf) = buf
  | 0, b₀, buf, hlen => by
    have hbuf : buf = [] := List.eq_nil_of_length_eq_zero (by omega)
    subst hbuf
    rfl
  | n+1, b₀, buf, hlen => by
    rw [engine_spec, engine_spec]
    have hge : 2*h ≤ buf.length := by
      rw [hlen]
      exact Nat.le_mul_of_pos_right _ (Nat.succ_pos n)
    have hblk : (buf.take (2*h)).length = 2*h := by
      rw [List.length_take]
      omega
    have hdroplen : (buf.drop (2*h)).length = 2*h*n := by
      rw [List.length_drop, hlen, Nat.mul_succ, Nat.add_sub_cancel]
    have hencblk : (block_spec f (nextKeys ks_e (b₀*rounds) rounds) h
        (buf.take (2*h))).length = 2*h :=
      block_spec_length h f _ hf _ hblk
    rw [List.take_left' hencblk, List.drop_left' hencblk]
    have hrev : nextKeys ks_d (b₀*rounds) rounds
        = (nextKeys ks_e (b₀*rounds) rounds).reverse :=
      nextKeys_rev ks_e ks_d (b₀*rounds) rounds (fun i hi => hks b₀ i hi)
    rw [hrev, block_spec_inv h f _ hf _ hblk]
    rw [show b₀*rounds + rounds = (b₀+1)*rounds from by ring]
    rw [engine_spec_inv h f rounds ks_e ks_d hf hks n (b₀+1) _ hdroplen]
    exact List.take_append_drop _ buf

/-- With zero rounds the source engine draws no key, never consults the round
function, and just swaps the halves of every block. -/
theorem goER_zero_rounds (h : Nat) (f : RoundFn) (keys : Nat → Key)
    (hh : 0 < h) :
    ∀ (fuel : Nat) (buf : List Nat) (idx : Nat),
      buf.length % (2*h) = 0 → buf.length ≤ fuel →
      goER h f keys 0 fuel buf idx
        = some (swap_halves h (buf.length / (2*h)) buf, idx) := by
  intro fuel
  induction fuel with
  | zero =>
    intro buf idx hmod hle
    have hbuf : buf = [] := List.eq_nil_of_length_eq_zero (by omega)
    subst hbuf
    simp [goER, swap_halves]
  | succ fuel ih =>
    intro buf idx hmod hle
    match buf with
    | [] => simp [goER, swap_halves]
    | x :: rest =>
      obtain ⟨q, hq⟩ : (2*h) ∣ (x :: rest).length := Nat.dvd_of_mod_eq_zero hmod
      have hqpos : 0 < q := by
        rcases Nat.eq_zero_or_pos q with h0 | h0
        · rw [h0, Nat.mul_zero] at hq
          simp at hq
        · exact h0
      obtain ⟨q', rfl⟩ : ∃ q', q = q' + 1 := ⟨q - 1, by omega⟩
      have h2h : 0 < 2*h := by omega
      have hguard : 2*h ≤ (x :: rest).length := by
        rw [hq]
        exact Nat.le_mul_of_pos_right _ hqpos
      have hdiv : (x :: rest).length / (2*h) = q' + 1 := by
        rw [hq, Nat.mul_div_cancel_left _ h2h]
      have hdroplen : ((x :: rest).drop (2*h)).length = 2*h*q' := by
        rw [List.length_drop, hq, Nat.mul_succ, Nat.add_sub_cancel]
      have hmod' : ((x :: rest).drop (2*h)).length % (2*h) = 0 := by
        rw [hdroplen]
        exact Nat.mul_mod_right _ _
      have hle' : ((x :: rest).drop (2*h)).length ≤ fuel := by
        rw [List.length_drop]
        simp only [List.length_cons] at hle ⊢
        omega
      have hdiv' : ((x :: rest).drop (2*h)).length / (2*h) = q' := by
        rw [hdroplen, Nat.mul_div_cancel_left _ h2h]
      rw [goER]
      rw [if_pos hguard]
      rw [show processBlock h f keys idx 0 ((x :: rest).take h)
          (((x :: rest).drop h).take h)
          = some ((x :: rest).take h, ((x :: rest).drop h).take h, idx) from rfl]
      dsimp only
      rw [ih _ _ hmod' hle']
      dsimp only
      rw [hdiv, hdiv', swap_halves, List.append_assoc]

/-- Top-level form of the engine/spec equivalence, in terms of the `block_size`
argument of the source. -/
theorem execute_rounds_eq_spec (buffer : List Nat) (bs : Nat)
    (keys : Nat → Key) (f : RoundFn) (rounds idx : Nat) (h0 : 0 < bs)
    (h2 : bs % 2 = 0) (hlen : buffer.length % bs = 0)
    (hf : ∀ x k, (f x k).length = bs/2) :
    execute_rounds buffer bs keys f rounds idx
      = some (engine_spec (bs/2) f keys rounds idx (buffer.length / bs) buffer,
          idx + rounds * (buffer.length / bs)) := by
  have hbs : 2 * (bs/2) = bs := by omega
  unfold execute_rounds
  rw [goER_eq_spec (bs/2) f keys rounds (by omega) hf buffer.length buffer idx
    (by rw [hbs]; exact hlen) (Nat.le_refl _)]
  rw [hbs]

/-- C3: on a buffer whose length is a multiple of the positive even block
size, and for a round function returning exactly `block_size/2` bytes,
`execute_rounds` processes each block independently and left-to-right exactly
as the spec describes: split into halves, then per round draw a key, form
`new_right = left XOR round_function(right, key)` and shift the halves, and
after the loop perform one unconditional swap; keys are drawn from one
continuous stream, `rounds` per block. -/
theorem C3_execute_rounds_refines_spec (buffer : List Nat) (bs : Nat)
    (keys : Nat → Key) (f : RoundFn) (rounds idx : Nat) (h0 : 0 < bs)
    (h2 : bs % 2 = 0) (hlen : buffer.length % bs = 0)
    (hf : ∀ x k, (f x k).length = bs/2) :
    execute_rounds buffer bs keys f rounds idx
      = some (engine_spec (bs/2) f keys rounds idx (buffer.length / bs) buffer,
          idx + rounds * (buffer.length / bs)) :=
  execute_rounds_eq_spec buffer bs keys f rounds idx h0 h2 hlen hf

theorem C3_execute_rounds_refines_spec_witness :
    execute_rounds [1, 2, 3, 4] 2 (fun i => [i]) (fun _ _ => [7]) 1 0
      = some (engine_spec 1 (fun _ _ => [7]) (fun i => [i]) 1 0
          ([1, 2, 3, 4].length / 2) [1, 2, 3, 4],
          0 + 1 * ([1, 2, 3, 4].length / 2)) :=
  C3_execute_rounds_refines_spec [1, 2, 3, 4] 2 (fun i => [i]) (fun _ _ => [7])
    1 0 (by decide) (by decide) (by decide) (fun _ _ => rfl)

/-- C7: with `rounds = 0` the engine draws no key (the key-stream index comes
back unchanged) and never calls the round function (`f` is arbitrary and
unconstrained), yet the unconditional final swap still runs: every block of
the output is the input block with its halves exchanged. -/
theorem C7_zero_rounds_swaps_halves (buffer : List Nat) (bs : Nat)
    (keys : Nat → Key) (f : RoundFn) (idx : Nat) (h0 : 0 < bs)
    (h2 : bs % 2 = 0) (hlen : buffer.length % bs = 0) :
    execute_rounds buffer bs keys f 0 idx
      = some (swap_halves (bs/2) (buffer.length / bs) buffer, idx) := by
  have hbs : 2 * (bs/2) = bs := by omega
  unfold execute_rounds
  rw [goER_zero_rounds (bs/2) f keys (by omega) buffer.length buffer idx
    (by rw [hbs]; exact hlen) (Nat.le_refl _)]
  rw [hbs]

theorem C7_zero_rounds_swaps_halves_witness :
    execute_rounds [1, 2, 3, 4] 4 (fun _ => []) (fun _ _ => []) 0 5
      = some (swap_halves 2 ([1, 2, 3, 4].length / 4) [1, 2, 3, 4], 5) :=
  C7_zero_rounds_swaps_halves [1, 2, 3, 4] 4 (fun _ => []) (fun _ _ => []) 5
    (by decide) (by decide) (by decide)

/-- C9: the engine is deterministic — its output depends only on the buffer,
block size, round function, round count and the keys actually drawn: two key
streams that agree on the drawn range produce byte-identical results. -/
theorem C9_engine_determinism (buffer : List Nat) (bs : Nat)
    (keys₁ keys₂ : Nat → Key) (f : RoundFn) (rounds idx : Nat)
    (h0 : 0 < bs) (h2 : bs % 2 = 0) (hlen : buffer.length % bs = 0)
    (hf : ∀ x k, (f x k).length = bs/2)
    (hagree : ∀ j, idx ≤ j → j < idx + rounds * (buffer.length / bs) →
      keys₁ j = keys₂ j) :
    execute_rounds buffer bs keys₁ f rounds idx
      = execute_rounds buffer bs keys₂ f rounds idx := by
  rw [execute_rounds_eq_spec buffer bs keys₁ f rounds idx h0 h2 hlen hf,
    execute_rounds_eq_spec buffer bs keys₂ f rounds idx h0 h2 hlen hf,
    engine_spec_congr (bs/2) f rounds keys₁ keys₂ (buffer.length / bs) idx
      buffer hagree]

theorem C9_engine_determinism_witness :
    execute_rounds [1, 2, 3, 4] 2 (fun i => [i]) (fun _ _ => [7]) 1 0
      = execute_rounds [1, 2, 3, 4] 2 (fun i => [i % 5]) (fun _ _ => [7]) 1 0 :=
  C9_engine_determinism [1, 2, 3, 4] 2 (fun i => [i]) (fun i => [i % 5])
    (fun _ _ => [7]) 1 0 (by decide) (by decide) (by decide) (fun _ _ => rfl)
    (fun j h1 h2 => by
      have : j < 2 := by simpa using h2
      interval_cases j <;> rfl)

/-- C6: `cipher` and `decipher` abort (the modelled panic, `none`) exactly
when the block size is zero or odd; with a positive even block size and
collaborators honouring their contracts (padder output a multiple of the
block size, decipher input a multiple of the block size, round function
output exactly `block_size/2` bytes) both calls return without abort — in
particular `cipher` always produces a ciphertext. -/
theorem C6_block_size_validation (m ct : List Nat) (bs : Nat)
    (padder : List Nat → Nat → List Nat) (keys₁ keys₂ : Nat → Key)
    (f : RoundFn) (rounds : Nat)
    (remover : List Nat → Except PaddingError Unit × List Nat)
    (hpad : bs ≠ 0 → (padder m bs).length % bs = 0)
    (hf : ∀ x k, (f x k).length = bs/2)
    (hct : bs ≠ 0 → ct.length % bs = 0) :
    (cipher m bs padder keys₁ f rounds = none ↔ (bs = 0 ∨ bs % 2 ≠ 0))
    ∧ (decipher ct bs keys₂ f rounds remover = none ↔ (bs = 0 ∨ bs % 2 ≠ 0)) := by
  by_cases hbs0 : bs = 0
  · subst hbs0
    constructor
    · constructor
      · intro _; exact Or.inl rfl
      · intro _; rfl
    · constructor
      · intro _; exact Or.inl rfl
      · intro _; rfl
  · by_cases hbs2 : bs % 2 = 0
    · have hcip : cipher m bs padder keys₁ f rounds
          = some (engine_spec (bs/2) f keys₁ rounds 0
              ((padder m bs).length / bs) (padder m bs)) := by
        unfold cipher
        rw [if_neg hbs0, if_neg (fun hc => hc hbs2)]
        rw [execute_rounds_eq_spec _ bs keys₁ f rounds 0 (by omega) hbs2
          (hpad hbs0) hf]
      have hdec : decipher ct bs keys₂ f rounds remover ≠ none := by
        unfold decipher
        rw [if_neg hbs0, if_neg (fun hc => hc hbs2)]
        rw [execute_rounds_eq_spec ct bs keys₂ f rounds 0 (by omega) hbs2
          (hct hbs0) hf]
        dsimp only
        match remover (engine_spec (bs/2) f keys₂ rounds 0 (ct.length / bs) ct) with
        | (Except.ok _, cleaned) => exact fun hc => Option.noConfusion hc
        | (Except.error e, _) => exact fun hc => Option.noConfusion hc
      constructor
      · rw [hcip]
        constructor
        · intro hc; exact absurd hc (fun hc => Option.noConfusion hc)
        · intro hor; rcases hor with hh | hh
          · exact absurd hh hbs0
          · exact absurd hbs2 hh
      · constructor
        · intro hc; exact absurd hc hdec
        · intro hor; rcases hor with hh | hh
          · exact absurd hh hbs0
          · exact absurd hbs2 hh
    · have hcip : cipher m bs padder keys₁ f rounds = none := by
        unfold cipher
        rw [if_neg hbs0, if_pos hbs2]
      have hdec : decipher ct bs keys₂ f rounds remover = none := by
        unfold decipher
        rw [if_neg hbs0, if_pos hbs2]
      constructor
      · rw [hcip]
        constructor
        · intro _; exact Or.inr hbs2
        · intro _; rfl
      · rw [hdec]
        constructor
        · intro _; exact Or.inr hbs2
        · intro _; rfl

theorem C6_block_size_validation_witness :
    (cipher [1] 2 (fun msg _ => msg ++ [0]) (fun _ => []) (fun _ _ => [0]) 3
        = none ↔ ((2:Nat) = 0 ∨ 2 % 2 ≠ 0))
    ∧ (decipher [1, 2] 2 (fun _ => []) (fun _ _ => [0]) 3
        (fun l => (Except.ok (), l)) = none ↔ ((2:Nat) = 0 ∨ 2 % 2 ≠ 0)) :=
  C6_block_size_validation [1] [1, 2] 2 (fun msg _ => msg ++ [0]) (fun _ => [])
    (fun _ => []) (fun _ _ => [0]) 3 (fun l => (Except.ok (), l))
    (fun _ => rfl) (fun _ _ => rfl) (fun _ => rfl)

/-- C1: the claim quantifies over every even block size up to 256, but at
`bs = 256` on a message whose length is a multiple of 256 the padding tag
wraps to the byte 0, so deciphering the ciphertext fails with a padding
error instead of returning the message.  The instance below satisfies every
hypothesis of the claim (`f` always returns `256/2 = 128` bytes, and the
constant key sources are their own blockwise reversal). -/
theorem C1_counterexample :
    (cipher [] 256 pkcs7.add_padding (fun _ => [])
        (fun _ _ => List.replicate 128 0) 1).bind
        (fun ct => decipher ct 256 (fun _ => [])
          (fun _ _ => List.replicate 128 0) 1 pkcs7.remove_padding)
      ≠ some (Except.ok ([] : List Nat)) := by
  decide

/-- C1 (amended): for every message `m`, even block size `0 < bs ≤ 256` —
excluding only `bs = 256` when `m.length` is a multiple of 256, where the
one-byte padding tag wraps to 0 — round count `rounds ≥ 1`, round function
returning exactly `bs/2` bytes, and key sources such that per block the
decipher draw sequence reverses the cipher draw sequence, deciphering the
ciphertext returns exactly the original message. -/
theorem C1_round_trip (m : List Nat) (bs rounds : Nat) (f : RoundFn)
    (ks_e ks_d : Nat → Key) (hbs0 : 0 < bs) (hbs2 : bs % 2 = 0)
    (hbs256 : bs ≤ 256) (hwrap : bs ≤ 255 ∨ m.length % bs ≠ 0)
    (_hr : 1 ≤ rounds) (hf : ∀ x k, (f x k).length = bs/2)
    (hks : ∀ b i, i < rounds →
      ks_d (b*rounds + i) = ks_e (b*rounds + (rounds - 1 - i))) :
    (cipher m bs pkcs7.add_padding ks_e f rounds).bind
        (fun ct => decipher ct bs ks_d f rounds pkcs7.remove_padding)
      = some (Except.ok m) := by
  have hbs' : 2 * (bs/2) = bs := by omega
  have hpadlen : (pkcs7.add_padding m bs).length % bs = 0 :=
    pkcs7.add_padding_length_mod m bs hbs0
  have hlen2 : (pkcs7.add_padding m bs).length
      = 2*(bs/2) * ((pkcs7.add_padding m bs).length / bs) := by
    rw [hbs']
    exact (Nat.mul_div_cancel' (Nat.dvd_of_mod_eq_zero hpadlen)).symm
  have hcip : cipher m bs pkcs7.add_padding ks_e f rounds
      = some (engine_spec (bs/2) f ks_e rounds 0
          ((pkcs7.add_padding m bs).length / bs) (pkcs7.add_padding m bs)) := by
    unfold cipher
    rw [if_neg (by omega), if_neg (fun hc => hc hbs2)]
    rw [execute_rounds_eq_spec _ bs ks_e f rounds 0 hbs0 hbs2 hpadlen hf]
  rw [hcip, Option.some_bind]
  have hctlen : (engine_spec (bs/2) f ks_e rounds 0
      ((pkcs7.add_padding m bs).length / bs) (pkcs7.add_padding m bs)).length
      = (pkcs7.add_padding m bs).length := by
    rw [engine_spec_length (bs/2) f ks_e rounds hf _ 0 _ hlen2]
    exact hlen2.symm
  have hctmod : (engine_spec (bs/2) f ks_e rounds 0
      ((pkcs7.add_padding m bs).length / bs)
      (pkcs7.add_padding m bs)).length % bs = 0 := by
    rw [hctlen]
    exact hpadlen
  unfold decipher
  rw [if_neg (by omega), if_neg (fun hc => hc hbs2)]
  rw [execute_rounds_eq_spec _ bs ks_d f rounds 0 hbs0 hbs2 hctmod hf]
  dsimp only
  rw [hctlen]
  have hinv := engine_spec_inv (bs/2) f rounds ks_e ks_d hf hks
    ((pkcs7.add_padding m bs).length / bs) 0 (pkcs7.add_padding m bs) hlen2
  rw [Nat.zero_mul] at hinv
  rw [hinv]
  rw [pkcs7.remove_padding_add_padding m bs (by omega) hbs256 hwrap]

theorem C1_round_trip_witness :
    (cipher [1, 2, 3] 4 pkcs7.add_padding (fun i => [i])
        (fun x k => [x.headD 0, k.headD 0]) 1).bind
        (fun ct => decipher ct 4 (fun i => [i])
          (fun x k => [x.headD 0, k.headD 0]) 1 pkcs7.remove_padding)
      = some (Except.ok [1, 2, 3]) :=
  C1_round_trip [1, 2, 3] 4 1 (fun x k => [x.headD 0, k.headD 0])
    (fun i => [i]) (fun i => [i]) (by decide) (by decide) (by decide)
    (Or.inl (by decide)) (by decide) (fun _ _ => rfl)
    (fun b i hi => by
      have hi0 : i = 0 := by omega
      subst hi0
      rfl)
